import Mathlib

/-!
# Verification of the ai-doc-pal core

A shallow embedding of the core of the `ai-doc-pal` repository:

* the markdown chunker (`src/embeddings/chunker.ts`),
* the vector store state machine (`src/db/vector-db.ts`),
* the MCP `read_file` path guard (`src/mcp/server.ts`),
* the incremental-update purge pass (`src/commands/update.ts`),

together with theorems settling the specification's claims about them.

JavaScript strings are modelled as `List Char`.  String lengths and slices
are counted in characters (the source counts UTF-16 code units; the two
agree on all code points below U+10000, and none of the properties below
depend on the difference).  JavaScript regular-expression constructs are
translated into explicit scanning functions; each translation is documented
at its definition.  Some scanners advance past a matched region, which is
not structural recursion, so they take an explicit fuel argument that their
wrappers instantiate with the string length (an upper bound on the number
of scanning steps, since every step consumes at least one character).
-/

namespace AiDocPal

/-- JavaScript strings, modelled as lists of characters. -/
abbrev Str := List Char

/-- Whitespace as recognised by JavaScript's `\s` class and `String.trim`
(restricted to the ASCII whitespace characters; the Unicode space
characters JavaScript additionally accepts play no role here). -/
def isWS (c : Char) : Bool :=
  c == ' ' || c == '\t' || c == '\n' || c == '\r' || c == '\x0b' || c == '\x0c'

/-- Leading-whitespace removal, the first half of `String.prototype.trim`. -/
def trimLeft (s : Str) : Str := s.dropWhile isWS

/-- Trailing-whitespace removal, the second half of `String.prototype.trim`. -/
def trimRight (s : Str) : Str := (s.reverse.dropWhile isWS).reverse

/-- JavaScript `s.trim()`. -/
def trim (s : Str) : Str := trimRight (trimLeft s)

/-- JavaScript `s.slice(-n)` for a non-negative integer `n`.  For `n > 0`
this is the suffix of the last `n` characters (the whole string when
`n ≥ s.length`); for `n = 0` JavaScript evaluates `slice(-0) = slice(0)`,
the **whole** string, not the empty one. -/
def jsSliceNeg (s : Str) (n : Nat) : Str :=
  if n = 0 then s else s.drop (s.length - n)

/-- JavaScript `s.split(sep)` for a single-character separator: the list of
(possibly empty) segments between occurrences of `sep`. -/
def splitOnChar (sep : Char) : Str → List Str
  | [] => [[]]
  | c :: cs =>
    if c = sep then [] :: splitOnChar sep cs
    else
      match splitOnChar sep cs with
      | [] => [[c]]
      | l :: ls => (c :: l) :: ls

/-- JavaScript `s.split('\n')`. -/
def splitLines (s : Str) : List Str := splitOnChar '\n' s

/-- Worker for `splitParas`: `cur` is the paragraph being accumulated and
`nl` the number of newline characters read but not yet committed.  A run of
two or more newlines is a separator (matching the regex `\n\n+`); a single
newline stays inside the paragraph. -/
def parasGo : Str → Str → Nat → List Str
  | [], cur, nl => if 2 ≤ nl then [cur, []] else [cur ++ List.replicate nl '\n']
  | c :: cs, cur, nl =>
    if c = '\n' then parasGo cs cur (nl + 1)
    else if 2 ≤ nl then cur :: parasGo cs [c] 0
    else parasGo cs (cur ++ List.replicate nl '\n' ++ [c]) 0

/-- JavaScript `s.split(/\n\n+/)`: split on maximal runs of two or more
newline characters. -/
def splitParas (s : Str) : List Str := parasGo s [] 0

/-- The largest length of any string in a list (0 for the empty list). -/
def maxLen (l : List Str) : Nat := l.foldr (fun s acc => max s.length acc) 0

/-! ## The chunker data model (`src/embeddings/chunker.ts`) -/

/-- The `Chunk` interface of `chunker.ts`. -/
structure Chunk where
  content : Str
  index : Nat
  lineStart : Int
  lineEnd : Int
  heading : Option Str
deriving Repr, DecidableEq

/-- The `ChunkingOptions` interface of `chunker.ts`.  The source declares the
sizes as JavaScript numbers; the spec constrains them to
`maxChunkSize : int > 0` and `chunkOverlap : int ≥ 0`, so they are modelled
as naturals. -/
structure ChunkingOptions where
  maxChunkSize : Nat
  chunkOverlap : Nat
  respectHeadings : Bool
deriving Repr, DecidableEq

/-- `DEFAULT_OPTIONS` of `chunker.ts`. -/
def defaultOptions : ChunkingOptions :=
  { maxChunkSize := 1000, chunkOverlap := 100, respectHeadings := true }

/-- The internal `Section` interface of `chunker.ts`. -/
structure Section where
  heading : Option Str
  headingLevel : Nat
  content : Str
  lineStart : Int
  lineEnd : Int
deriving Repr, DecidableEq

/-! ## `extractTitle` -/

/-- ASCII lower-casing of one character, matching the case-insensitivity of
the `/\.(md|mdx)$/i` regex on its ASCII pattern characters. -/
def lowerAscii (c : Char) : Char :=
  if 'A' ≤ c ∧ c ≤ 'Z' then Char.ofNat (c.toNat + 32) else c

/-- JavaScript `filename.replace(/\.(md|mdx)$/i, '')`: remove a trailing
`.md` or `.mdx` extension, case-insensitively.  (The two suffix cases are
mutually exclusive, so the regex alternation order is immaterial.) -/
def stripMdExt (filename : Str) : Str :=
  let lower := filename.map lowerAscii
  if (".md".data).isSuffixOf lower then filename.take (filename.length - 3)
  else if (".mdx".data).isSuffixOf lower then filename.take (filename.length - 4)
  else filename

/-- Attempt the `\s+(.+)$` tail of the title regex `/^#\s+(.+)$/m` against
the character stream `rest` that follows a line-initial `#`.  `\s+` is
greedy but backtracks, `.` matches any character except a newline, and `$`
(in multiline mode) matches before a newline or at the end:

* if the maximal whitespace run is empty the match fails;
* otherwise, if any character follows the run, the captured group is the
  run of non-newline characters from there (note that `\s` also matches a
  newline, so the whitespace run may continue onto later lines);
* otherwise `\s+` backtracks, and the match succeeds with an all-whitespace
  group (which trims to the empty title) exactly when the run contains a
  non-newline character at a positive offset. -/
def tryTitle (rest : Str) : Option Str :=
  let w := rest.takeWhile isWS
  let a := rest.dropWhile isWS
  if w = [] then none
  else if a ≠ [] then some (trim (a.takeWhile (fun c => c != '\n')))
  else if (w.drop 1).any (fun c => c != '\n') then some []
  else none

/-- The character stream that follows the current line, given the remaining
lines: empty if there are none, otherwise a newline followed by the
remaining lines re-joined with newlines. -/
def restStream : List Str → Str
  | [] => []
  | l :: ls => '\n' :: List.intercalate ['\n'] (l :: ls)

/-- The multiline scan of `content.match(/^#\s+(.+)$/m)`: try every line
start in order (the `^` anchor only matches at line starts); at a line
beginning with `#`, attempt the rest of the pattern against the whole
remaining character stream (since `\s+` can cross line breaks); the first
success wins, and its group is returned trimmed. -/
def findH1Lines : List Str → Option Str
  | [] => none
  | l :: ls =>
    match l with
    | c :: r =>
      if c = '#' then
        match tryTitle (r ++ restStream ls) with
        | some t => some t
        | none => findH1Lines ls
      else findH1Lines ls
    | [] => findH1Lines ls

/-- `extractTitle` of `chunker.ts`: the trimmed group of the first match of
`/^#\s+(.+)$/m`, or the filename with a trailing markdown extension
removed. -/
def extractTitle (content fallbackFilename : Str) : Str :=
  match findH1Lines (splitLines content) with
  | some t => t
  | none => stripMdExt fallbackFilename

/-! ## `stripMdxComponents` -/

/-- Whole-line match of `/^kw\s+.*$/` for a keyword `kw` (`import` or
`export`): the line starts with the keyword followed by at least one
whitespace character. -/
def matchesKwLine (kw : Str) (line : Str) : Bool :=
  kw.isPrefixOf line &&
    match line.drop kw.length with
    | c :: _ => isWS c
    | [] => false

/-- One `result.replace(/^kw\s+.*$/gm, '')` pass: matched lines become
empty lines (the regex consumes the line body but not its newline). -/
def stripDeclLines (kw : Str) (s : Str) : Str :=
  List.intercalate ['\n'] ((splitLines s).map fun l => if matchesKwLine kw l then [] else l)

/-- Split a string at its first `'>'`: `some (before, after)` with
`s = before ++ '>' :: after` and no `'>'` in `before`, or `none` if the
string contains no `'>'`. -/
def splitAtGt (s : Str) : Option (Str × Str) :=
  match s.dropWhile (fun c => c != '>') with
  | _ :: after => some (s.takeWhile (fun c => c != '>'), after)
  | [] => none

/-- ASCII `[A-Z]`. -/
def isUpper (c : Char) : Bool := decide ('A' ≤ c) && decide (c ≤ 'Z')

/-- ASCII `[a-zA-Z0-9]`. -/
def isAlnum (c : Char) : Bool :=
  isUpper c || (decide ('a' ≤ c) && decide (c ≤ 'z')) || (decide ('0' ≤ c) && decide (c ≤ '9'))

/-- Global scan of `result.replace(/<[A-Z][a-zA-Z0-9]*[^>]*\/>/g, '')`.
Since `[^>]` matches any character but `'>'` (newlines included), a match
starting at a `'<'` followed by an upper-case letter extends exactly to the
first subsequent `'>'`, and succeeds iff the character before that `'>'` is
`'/'`.  On failure the scan advances one character, as the regex engine
does. -/
def scGo : Nat → Str → Str
  | 0, s => s
  | _ + 1, [] => []
  | fuel + 1, '<' :: rest =>
    match rest with
    | c :: _ =>
      if isUpper c then
        match splitAtGt rest with
        | some (beforeGt, afterGt) =>
          if beforeGt.getLast? = some '/' then scGo fuel afterGt
          else '<' :: scGo fuel rest
        | none => '<' :: scGo fuel rest
      else '<' :: scGo fuel rest
    | [] => ['<']
  | fuel + 1, c :: rest => c :: scGo fuel rest

/-- The closing tag `</name>` for a component name. -/
def closingTag (name : Str) : Str := '<' :: '/' :: name ++ ['>']

/-- Earliest occurrence of `pat` in a string, returning the remainder after
it (the lazy `[\s\S]*?` search of the block regex). -/
def findSub (pat : Str) : Str → Option Str
  | [] => none
  | c :: cs =>
    if pat.isPrefixOf (c :: cs) then some ((c :: cs).drop pat.length)
    else findSub pat cs

/-- Backtracking over the captured component name of
`/<([A-Z][a-zA-Z0-9]*)[^>]*>[\s\S]*?<\/\1>/g`: the greedy capture tries the
maximal alphanumeric run first and gives characters back (to the following
`[^>]*`) one at a time, so the candidate names `base :: run.take ℓ` are
tried for `ℓ` descending; for each, the lazy middle finds the earliest
closing tag.  Returns the remainder after the first successful closing
tag. -/
def tryNames (base : Char) (run : Str) (afterGt : Str) : Nat → Option Str
  | 0 => findSub (closingTag [base]) afterGt
  | ℓ + 1 =>
    match findSub (closingTag (base :: run.take (ℓ + 1))) afterGt with
    | some a => some a
    | none => tryNames base run afterGt ℓ

/-- Global scan of the paired-block regex
`/<([A-Z][a-zA-Z0-9]*)[^>]*>[\s\S]*?<\/\1>/g`.  The opening tag of a match
starting at `'<'` plus an upper-case letter always ends at the first
subsequent `'>'` (its other characters cannot contain `'>'`); the closing
tag is then located by `tryNames`. -/
def blocksGo : Nat → Str → Str
  | 0, s => s
  | _ + 1, [] => []
  | fuel + 1, '<' :: rest =>
    match rest with
    | c :: rs =>
      if isUpper c then
        match splitAtGt rest with
        | some (_, afterGt) =>
          match tryNames c (rs.takeWhile isAlnum) afterGt (rs.takeWhile isAlnum).length with
          | some remainder => blocksGo fuel remainder
          | none => '<' :: blocksGo fuel rest
        | none => '<' :: blocksGo fuel rest
      else '<' :: blocksGo fuel rest
    | [] => ['<']
  | fuel + 1, c :: rest => c :: blocksGo fuel rest

/-- Global scan of `result.replace(/<\/?[A-Z][a-zA-Z0-9]*[^>]*>/g, '')`: a
match starts at `'<'`, optionally `'/'`, then an upper-case letter, and
extends to the first subsequent `'>'`. -/
def tagsGo : Nat → Str → Str
  | 0, s => s
  | _ + 1, [] => []
  | fuel + 1, '<' :: rest =>
    let attempt : Option Str :=
      match rest with
      | '/' :: c :: rs => if isUpper c then (splitAtGt rs).map (fun p => p.2) else none
      | c :: rs => if isUpper c then (splitAtGt rs).map (fun p => p.2) else none
      | [] => none
    match attempt with
    | some after => tagsGo fuel after
    | none => '<' :: tagsGo fuel rest
  | fuel + 1, c :: rest => c :: tagsGo fuel rest

/-- Global scan of `result.replace(/\n{3,}/g, '\n\n')`: every maximal run
of `nl` newlines is emitted as `min nl 2` newlines. -/
def collapseGo : Str → Nat → Str
  | [], nl => List.replicate (min nl 2) '\n'
  | c :: cs, nl =>
    if c = '\n' then collapseGo cs (nl + 1)
    else List.replicate (min nl 2) '\n' ++ c :: collapseGo cs 0

/-- `stripMdxComponents` of `chunker.ts`: the five regex replacement passes
in source order, then the blank-line collapse, then a trim. -/
def stripMdxComponents (content : Str) : Str :=
  let r2 := stripDeclLines "export".data (stripDeclLines "import".data content)
  let r3 := scGo r2.length r2
  let r4 := blocksGo r3.length r3
  let r5 := tagsGo r4.length r4
  trim (collapseGo r5 0)

/-! ## `parseIntoSections` -/

/-- The `\s+(.+)$` tail of the per-line heading regex
`/^(#{1,6})\s+(.+)$/`: within a single line (which contains no newline) the
pattern matches iff the remainder after the hashes starts with a whitespace
character and has length at least two; the captured text, once trimmed, is
then the trimmed remainder. -/
def isHeadingRest : Str → Bool
  | c :: _ :: _ => isWS c
  | _ => false

/-- `line.match(/^(#{1,6})\s+(.+)$/)` of `parseIntoSections`, returning the
heading level and the trimmed heading text.  If the line carries more than
six leading hashes no prefix of the run can be followed by `\s`, so there
is no match. -/
def headingMatch (line : Str) : Option (Nat × Str) :=
  let hashes := line.takeWhile (fun c => c == '#')
  let r := line.drop hashes.length
  if 1 ≤ hashes.length ∧ hashes.length ≤ 6 ∧ isHeadingRest r = true then
    some (hashes.length, trim r)
  else none

/-- The line loop of `parseIntoSections`: `cur` is the section being
accumulated and `n` the 1-based number of the current line.  A heading line
closes the current section (if its content is non-blank) and starts a new
one; any other line is appended, with its newline, to the current
content. -/
def sectionsLoop : List Str → Section → Int → List Section
  | [], cur, n =>
    if trim cur.content ≠ [] then [{ cur with lineEnd := n - 1 }] else []
  | line :: rest, cur, n =>
    match headingMatch line with
    | some (k, h) =>
      (if trim cur.content ≠ [] then [{ cur with lineEnd := n - 1 }] else []) ++
        sectionsLoop rest
          { heading := some h, headingLevel := k, content := line ++ ['\n'],
            lineStart := n, lineEnd := n } (n + 1)
    | none =>
      sectionsLoop rest { cur with content := cur.content ++ line ++ ['\n'] } (n + 1)

/-- `parseIntoSections` of `chunker.ts`. -/
def parseIntoSections (content : Str) : List Section :=
  sectionsLoop (splitLines content)
    { heading := none, headingLevel := 0, content := [], lineStart := 1, lineEnd := 1 } 1

/-! ## `splitSection` and `chunkMarkdown` -/

/-- The paragraph loop of `splitSection`.  When adding the next paragraph
would push the buffer past `maxChunkSize` and the buffer is non-empty, the
buffer is closed as a chunk (trimmed) and the next buffer is seeded with
`currentChunk.slice(-chunkOverlap)` plus a blank-line separator plus the
paragraph.  The final non-blank buffer is closed with the section's last
line. -/
def splitParasLoop (sec : Section) (maxChunkSize chunkOverlap : Nat) :
    List Str → Str → Int → Int → Nat → List Chunk
  | [], currentChunk, chunkStart, _, chunkIndex =>
    if trim currentChunk ≠ [] then
      [{ content := trim currentChunk, index := chunkIndex,
         lineStart := chunkStart, lineEnd := sec.lineEnd, heading := sec.heading }]
    else []
  | paragraph :: rest, currentChunk, chunkStart, currentLine, chunkIndex =>
    let paragraphLines : Int := (splitLines paragraph).length
    if maxChunkSize < currentChunk.length + paragraph.length + 2 ∧ currentChunk ≠ [] then
      { content := trim currentChunk, index := chunkIndex,
        lineStart := chunkStart, lineEnd := currentLine - 1, heading := sec.heading } ::
        splitParasLoop sec maxChunkSize chunkOverlap rest
          (jsSliceNeg currentChunk chunkOverlap ++ '\n' :: '\n' :: paragraph)
          currentLine (currentLine + paragraphLines + 1) (chunkIndex + 1)
    else
      splitParasLoop sec maxChunkSize chunkOverlap rest
        (if currentChunk ≠ [] then currentChunk ++ '\n' :: '\n' :: paragraph else paragraph)
        chunkStart (currentLine + paragraphLines + 1) chunkIndex

/-- `splitSection` of `chunker.ts`: a section whose trimmed content fits in
`maxChunkSize` is a single chunk; otherwise it is split on paragraph
boundaries. -/
def splitSection (sec : Section) (maxChunkSize chunkOverlap : Nat) : List Chunk :=
  let content := trim sec.content
  if content.length ≤ maxChunkSize then
    [{ content := content, index := 0, lineStart := sec.lineStart,
       lineEnd := sec.lineEnd, heading := sec.heading }]
  else
    splitParasLoop sec maxChunkSize chunkOverlap (splitParas content) [] sec.lineStart
      sec.lineStart 0

/-- The flat (respectHeadings = false) line loop of `chunkMarkdown`. -/
def flatLoop (maxChunkSize chunkOverlap : Nat) :
    List Str → Str → Int → Int → Nat → List Chunk
  | [], currentChunk, chunkStart, currentLine, chunkIndex =>
    if trim currentChunk ≠ [] then
      [{ content := trim currentChunk, index := chunkIndex,
         lineStart := chunkStart, lineEnd := currentLine - 1, heading := none }]
    else []
  | line :: rest, currentChunk, chunkStart, currentLine, chunkIndex =>
    if maxChunkSize < currentChunk.length + line.length + 1 ∧ currentChunk ≠ [] then
      { content := trim currentChunk, index := chunkIndex,
        lineStart := chunkStart, lineEnd := currentLine - 1, heading := none } ::
        flatLoop maxChunkSize chunkOverlap rest
          (jsSliceNeg currentChunk chunkOverlap ++ '\n' :: line)
          currentLine (currentLine + 1) (chunkIndex + 1)
    else
      flatLoop maxChunkSize chunkOverlap rest
        (currentChunk ++ if currentChunk ≠ [] then '\n' :: line else line)
        chunkStart (currentLine + 1) chunkIndex

/-- The global re-indexing loop of `chunkMarkdown`: assign indices `i`,
`i+1`, … across all chunks of the document. -/
def reindexFrom : Nat → List Chunk → List Chunk
  | _, [] => []
  | i, c :: cs => { c with index := i } :: reindexFrom (i + 1) cs

/-- `chunkMarkdown` of `chunker.ts` (with the options already merged with
the defaults, as `{ ...DEFAULT_OPTIONS, ...options }` produces). -/
def chunkMarkdown (content : Str) (options : ChunkingOptions) : List Chunk :=
  let cleanContent := stripMdxComponents content
  if options.respectHeadings then
    reindexFrom 0
      (((parseIntoSections cleanContent).map
        (fun sec => splitSection sec options.maxChunkSize options.chunkOverlap)).flatten)
  else
    flatLoop options.maxChunkSize options.chunkOverlap (splitLines cleanContent) [] 1 1 0

/-! ## The vector store (`src/db/vector-db.ts`)

The SQLite-backed `VectorDatabase` class is modelled as a pure state
machine.  Tables become lists of rows; `AUTOINCREMENT` primary keys become
the counters `nextDocId`/`nextChunkId` (starting at 1); `unixepoch()`
timestamps become an explicit `now` argument.  The `vec0` virtual table's
dimension check — the only failure mode of `addChunk` — becomes an explicit
length test, and crucially the model mirrors the source's statement order:
the chunk row is inserted *before* the embedding insert is attempted, and
`better-sqlite3` wraps neither statement in a transaction, so a failed
embedding insert leaves the chunk row behind.  Embedding vectors are
modelled over `ℚ` (the claims settled here do not depend on floating-point
rounding), and the distance metric computed inside `sqlite-vec` is a
parameter of `search`. -/

/-- A row of the `documents` table. -/
structure DocumentRow where
  id : Nat
  filePath : String
  title : String
  lastModified : Int
  fileHash : String
  createdAt : Int
  updatedAt : Int
deriving Repr, DecidableEq

/-- A row of the `chunks` table. -/
structure ChunkRow where
  id : Nat
  documentId : Nat
  content : String
  chunkIndex : Nat
  lineStart : Int
  lineEnd : Int
  heading : Option String
deriving Repr, DecidableEq

/-- A row of the `embeddings` virtual table. -/
structure EmbeddingRow where
  chunkId : Nat
  embedding : List ℚ
deriving Repr, DecidableEq

/-- The `DocumentMetadata` interface of `vector-db.ts`. -/
structure DocumentMetadata where
  filePath : String
  title : String
  lastModified : Int
  fileHash : String
deriving Repr, DecidableEq

/-- The `ChunkData` interface of `vector-db.ts` (without the optional `id`,
which `addChunk` ignores). -/
structure ChunkData where
  documentId : Nat
  content : String
  chunkIndex : Nat
  lineStart : Int
  lineEnd : Int
  heading : Option String
deriving Repr, DecidableEq

/-- The state of one `VectorDatabase`. -/
structure DbState where
  dimension : Nat
  documents : List DocumentRow
  chunks : List ChunkRow
  embeddings : List EmbeddingRow
  nextDocId : Nat
  nextChunkId : Nat
deriving Repr, DecidableEq

/-- A freshly created database (`initSchema` with a given embedding
dimension). -/
def emptyDb (dimension : Nat) : DbState :=
  { dimension := dimension, documents := [], chunks := [], embeddings := [],
    nextDocId := 1, nextChunkId := 1 }

/-- The errors the modelled operations can raise.  `dimensionMismatch` is
the `sqlite-vec` rejection of a vector whose length differs from the
`float[N]` column declared at index creation. -/
inductive DbError where
  | dimensionMismatch
deriving Repr, DecidableEq

/-- `upsertDocument` of `vector-db.ts`: update the row found by path, else
insert a fresh row; returns the (existing or new) document id.  `now`
stands for `unixepoch()`. -/
def upsertDocument (s : DbState) (meta : DocumentMetadata) (now : Int) : DbState × Nat :=
  match s.documents.find? (fun d => d.filePath == meta.filePath) with
  | some existing =>
    ({ s with
        documents := s.documents.map fun d =>
          if d.id = existing.id then
            { d with title := meta.title, lastModified := meta.lastModified,
                     fileHash := meta.fileHash, updatedAt := now }
          else d },
      existing.id)
  | none =>
    ({ s with
        documents := s.documents ++
          [{ id := s.nextDocId, filePath := meta.filePath, title := meta.title,
             lastModified := meta.lastModified, fileHash := meta.fileHash,
             createdAt := now, updatedAt := now }],
        nextDocId := s.nextDocId + 1 },
      s.nextDocId)

/-- `documentNeedsUpdate` of `vector-db.ts`: true iff no document exists at
the path or its stored hash differs. -/
def documentNeedsUpdate (s : DbState) (filePath fileHash : String) : Bool :=
  match s.documents.find? (fun d => d.filePath == filePath) with
  | none => true
  | some d => d.fileHash != fileHash

/-- `getDocumentByPath` of `vector-db.ts`. -/
def getDocumentByPath (s : DbState) (filePath : String) : Option DocumentRow :=
  s.documents.find? (fun d => d.filePath == filePath)

/-- `deleteDocumentChunks` of `vector-db.ts`: collect the ids of the
document's chunks, delete their embeddings, then delete the chunks.  The
`documents` table is not touched. -/
def deleteDocumentChunks (s : DbState) (documentId : Nat) : DbState :=
  let chunkIds := (s.chunks.filter (fun c => c.documentId == documentId)).map (fun c => c.id)
  { s with
      embeddings := s.embeddings.filter (fun e => !(decide (e.chunkId ∈ chunkIds))),
      chunks := s.chunks.filter (fun c => !(c.documentId == documentId)) }

/-- The chunk row `addChunk` inserts for a given fresh id. -/
def mkChunkRow (id : Nat) (chunk : ChunkData) : ChunkRow :=
  { id := id, documentId := chunk.documentId, content := chunk.content,
    chunkIndex := chunk.chunkIndex, lineStart := chunk.lineStart,
    lineEnd := chunk.lineEnd, heading := chunk.heading }

/-- `addChunk` of `vector-db.ts`.  The chunk row is inserted first; the
embedding insert then succeeds only when the vector length equals the
index's dimension (the `vec0` check).  The two statements are not wrapped
in a transaction, so the dimension error leaves the already-inserted chunk
row in place; the pair is the post-state and the thrown/returned result. -/
def addChunk (s : DbState) (chunk : ChunkData) (embedding : List ℚ) :
    DbState × Except DbError Nat :=
  let chunkId := s.nextChunkId
  let s1 := { s with chunks := s.chunks ++ [mkChunkRow chunkId chunk],
                     nextChunkId := chunkId + 1 }
  if embedding.length = s.dimension then
    ({ s1 with embeddings := s1.embeddings ++ [{ chunkId := chunkId, embedding := embedding }] },
      Except.ok chunkId)
  else (s1, Except.error DbError.dimensionMismatch)

/-- The `SearchResult` interface of `vector-db.ts`. -/
structure SearchResult where
  chunkId : Nat
  documentId : Nat
  filePath : String
  content : String
  lineStart : Int
  lineEnd : Int
  heading : Option String
  distance : ℚ
  score : ℚ
deriving Repr, DecidableEq

/-- The row mapping of one KNN hit of `search` (`vector-db.ts`): the inner
join of the hit with its chunk and document rows, annotated with the
derived `score = 1 / (1 + distance)`. -/
def searchHit (s : DbState) (p : EmbeddingRow × ℚ) : Option SearchResult :=
  match s.chunks.find? (fun c => c.id == p.1.chunkId) with
  | none => none
  | some c =>
    match s.documents.find? (fun d => d.id == c.documentId) with
    | none => none
    | some d =>
      some { chunkId := p.1.chunkId, documentId := c.documentId,
             filePath := d.filePath, content := c.content,
             lineStart := c.lineStart, lineEnd := c.lineEnd,
             heading := c.heading, distance := p.2,
             score := 1 / (1 + p.2) }

/-- `search` of `vector-db.ts`.  The `vec0` KNN constraint
`embedding MATCH ? AND k = ?` yields the `limit` stored embeddings nearest
to the query under the extension's distance metric (modelled by the
parameter `dist`, ties broken arbitrarily), ordered by ascending distance;
each hit is then joined and scored by `searchHit`.  A query vector of the
wrong length is rejected by `vec0`. -/
def search (s : DbState) (dist : List ℚ → List ℚ → ℚ) (queryEmbedding : List ℚ)
    (limit : Nat) : Except DbError (List SearchResult) :=
  if queryEmbedding.length = s.dimension then
    let scored := s.embeddings.map (fun e => (e, dist queryEmbedding e.embedding))
    let knn := (scored.mergeSort (fun a b => decide (a.2 ≤ b.2))).take limit
    Except.ok (knn.filterMap (searchHit s))
  else Except.error DbError.dimensionMismatch

/-- The statistics record returned by `getStats`. -/
structure Stats where
  documents : Nat
  chunks : Nat
  embeddings : Nat
deriving Repr, DecidableEq

/-- `getStats` of `vector-db.ts`: the three `COUNT(*)` queries. -/
def getStats (s : DbState) : Stats :=
  { documents := s.documents.length, chunks := s.chunks.length,
    embeddings := s.embeddings.length }

/-- The delete pass of `updateCommand` (`src/commands/update.ts`): for each
indexed document whose path is no longer among the current files, purge its
chunks via `deleteDocumentChunks`; the document row itself is left in
place (the source notes it "will be orphaned but not deleted"). -/
def updatePurgeMissing (s : DbState) (currentPaths : List String) : DbState :=
  (s.documents.filter (fun d => !(currentPaths.contains d.filePath))).foldl
    (fun st d => deleteDocumentChunks st d.id) s

/-! ## The `read_file` path guard (`src/mcp/server.ts`)

`handleReadFile` builds `path.join(docsPath, file_path)`, resolves it and
the configured root with `path.resolve`, and refuses unless
`resolvedPath.startsWith(resolvedDocsPath)` — a *string-prefix* test.
POSIX paths are modelled as `Str`; for an absolute `docsPath` the
composition of `path.join` and `path.resolve` is exactly segment
normalisation: split on `'/'`, drop empty and `"."` segments, let `".."`
pop the previous segment (staying at the root when there is none). -/

/-- Normalise a list of path segments against an accumulator (the segments
so far, reversed). -/
def resolveSegs : List Str → List Str → List Str
  | acc, [] => acc.reverse
  | acc, seg :: rest =>
    if seg = [] ∨ seg = ['.'] then resolveSegs acc rest
    else if seg = ['.', '.'] then
      match acc with
      | [] => resolveSegs [] rest
      | _ :: acc' => resolveSegs acc' rest
    else resolveSegs (seg :: acc) rest

/-- `path.resolve` on an absolute POSIX path: segment normalisation,
re-joined with slashes under a leading slash. -/
def resolveAbs (p : Str) : Str :=
  '/' :: List.intercalate ['/'] (resolveSegs [] (splitOnChar '/' p))

/-- The security check of `handleReadFile`: the resolved join of the root
and the requested path must have the resolved root as a **string**
prefix. -/
def readFileGuardAllows (docsPath filePath : Str) : Bool :=
  let resolvedPath := resolveAbs (docsPath ++ '/' :: filePath)
  let resolvedDocsPath := resolveAbs docsPath
  resolvedDocsPath.isPrefixOf resolvedPath

/-- Modelled from the spec: a canonical path lies within a canonical root
iff it is the root itself or extends it at a path-component boundary
(`root ++ "/"` is a prefix).  This is the containment the spec's
path-traversal guard is required to decide. -/
def isWithinRoot (root resolved : Str) : Bool :=
  resolved == root || (root ++ ['/']).isPrefixOf resolved

/-! ## Spec-side definitions

Definitions written from the specification's words, for comparison with the
implementation models above. -/

/-- Modelled from the spec ("the first level-1 heading's text"): a line is
a level-1 heading iff it is a `#` followed by whitespace and the rest of
the line; its title is that rest, trimmed. -/
def specH1Text : Str → Option Str
  | c :: d :: r => if c = '#' ∧ isWS d then some (trim (d :: r)) else none
  | _ => none

/-- Modelled from the spec ("the first level-1 heading's text, else the
filename without its markdown extension"): scan the lines for the first
level-1 heading. -/
def specExtractTitle (content fallbackFilename : Str) : Str :=
  match (splitLines content).findSome? specH1Text with
  | some t => t
  | none => stripMdExt fallbackFilename

/-- The largest single splitting unit the chunker works with: the longest
paragraph of any section when headings are respected, the longest line of
the cleaned content otherwise.  Used to bound chunk lengths. -/
def unitBound (cleaned : Str) (respectHeadings : Bool) : Nat :=
  if respectHeadings then
    (parseIntoSections cleaned).foldr
      (fun sec acc => max (maxLen (splitParas (trim sec.content))) acc) 0
  else maxLen (splitLines cleaned)

/-- Squared Euclidean distance over rational vectors: an executable,
provably non-negative distance metric used to instantiate the `dist`
parameter of `search` in concrete scenarios. -/
def sqDist : List ℚ → List ℚ → ℚ
  | x :: xs, y :: ys => (x - y) * (x - y) + sqDist xs ys
  | _, _ => 0

/-- A small concrete store used to instantiate theorems: dimension 2, one
document, two chunks, each with its paired embedding. -/
def dbExample : DbState :=
  { dimension := 2,
    documents := [{ id := 1, filePath := "a.md", title := "A", lastModified := 0,
                    fileHash := "h", createdAt := 0, updatedAt := 0 }],
    chunks := [{ id := 1, documentId := 1, content := "c1", chunkIndex := 0,
                 lineStart := 1, lineEnd := 1, heading := none },
               { id := 2, documentId := 2, content := "c2", chunkIndex := 0,
                 lineStart := 1, lineEnd := 1, heading := none }],
    embeddings := [{ chunkId := 1, embedding := [1, 0] },
                   { chunkId := 2, embedding := [0, 1] }],
    nextDocId := 2, nextChunkId := 3 }

/-! ## Helper lemmas: trimming -/

theorem length_dropWhile_le (p : Char → Bool) (s : Str) :
    (s.dropWhile p).length ≤ s.length :=
  (s.dropWhile_suffix p).length_le

theorem trimLeft_length_le (s : Str) : (trimLeft s).length ≤ s.length :=
  length_dropWhile_le _ _

theorem trimRight_length_le (s : Str) : (trimRight s).length ≤ s.length := by
  unfold trimRight
  rw [List.length_reverse]
  calc (s.reverse.dropWhile isWS).length ≤ s.reverse.length := length_dropWhile_le _ _
    _ = s.length := List.length_reverse s

theorem trim_length_le (s : Str) : (trim s).length ≤ s.length :=
  le_trans (trimRight_length_le _) (trimLeft_length_le _)

theorem dropWhile_idem (p : Char → Bool) : ∀ s : Str, (s.dropWhile p).dropWhile p = s.dropWhile p
  | [] => rfl
  | c :: cs => by
    cases h : p c with
    | true => simpa [List.dropWhile_cons, h] using dropWhile_idem p cs
    | false => simp [List.dropWhile_cons, h]

theorem trimLeft_trimLeft (s : Str) : trimLeft (trimLeft s) = trimLeft s :=
  dropWhile_idem isWS s

theorem trimRight_trimRight (s : Str) : trimRight (trimRight s) = trimRight s := by
  unfold trimRight
  rw [List.reverse_reverse, dropWhile_idem]

theorem trimRight_prefix_self (s : Str) : trimRight s <+: s := by
  have h := s.reverse.dropWhile_suffix isWS
  rw [← List.reverse_prefix] at h
  simpa [trimRight] using h

theorem trimLeft_of_prefix_eq_self {s u : Str} (hu : u <+: s) (hs : trimLeft s = s) :
    trimLeft u = u := by
  unfold trimLeft at hs ⊢
  rcases u with _ | ⟨c, cs⟩
  · rfl
  · obtain ⟨t, ht⟩ := hu
    subst ht
    have hc : ¬ isWS c = true := by
      simpa using (List.dropWhile_eq_self_iff.1 hs) (by simp)
    exact List.dropWhile_eq_self_iff.2 (fun hl => by simpa using hc)

theorem trim_trim (s : Str) : trim (trim s) = trim s := by
  unfold trim
  rw [trimLeft_of_prefix_eq_self (trimRight_prefix_self (trimLeft s)) (trimLeft_trimLeft s),
    trimRight_trimRight]

theorem trim_eq_nil_of_all {s : Str} (h : ∀ c ∈ s, isWS c = true) : trim s = [] := by
  have h1 : trimLeft s = [] := List.dropWhile_eq_nil_iff.2 h
  simp [trim, h1, trimRight]

theorem trim_dropWhile (s : Str) : trim (s.dropWhile isWS) = trim s := by
  unfold trim trimLeft
  rw [dropWhile_idem]

/-! ## Helper lemmas: slices and length bounds -/

theorem jsSliceNeg_length_le {n : Nat} (s : Str) (hn : 1 ≤ n) :
    (jsSliceNeg s n).length ≤ n := by
  unfold jsSliceNeg
  rw [if_neg (by omega)]
  simp only [List.length_drop]
  omega

theorem le_maxLen {l : List Str} {s : Str} (hs : s ∈ l) : s.length ≤ maxLen l := by
  induction l with
  | nil => cases hs
  | cons x xs ih =>
    rcases List.mem_cons.1 hs with h | h
    · subst h; exact le_max_left _ _
    · exact le_trans (ih h) (le_max_right _ _)

/-! ## Claim C2: chunk rows and embedding rows stay paired -/

/-- C2: the claim states that after any sequence of `addChunk` /
`deleteDocumentChunks` operations from an empty store the chunk count
equals the embedding count.  The code violates this: `addChunk` inserts
the chunk row before the `vec0` dimension check can fail, with no
enclosing transaction, so a single `addChunk` with a 3-dimensional vector
against a 4-dimensional empty store raises `dimensionMismatch` yet leaves
`getStats` reporting 1 chunk and 0 embeddings. -/
theorem addChunk_mismatch_breaks_pairing :
    (addChunk (emptyDb 4)
        { documentId := 1, content := "c", chunkIndex := 0, lineStart := 1,
          lineEnd := 1, heading := none } [1, 2, 3]).2
      = Except.error DbError.dimensionMismatch ∧
    (getStats (addChunk (emptyDb 4)
        { documentId := 1, content := "c", chunkIndex := 0, lineStart := 1,
          lineEnd := 1, heading := none } [1, 2, 3]).1).chunks = 1 ∧
    (getStats (addChunk (emptyDb 4)
        { documentId := 1, content := "c", chunkIndex := 0, lineStart := 1,
          lineEnd := 1, heading := none } [1, 2, 3]).1).embeddings = 0 :=
  ⟨rfl, rfl, rfl⟩

/-! ## Claim C3: the read_file path-traversal guard -/

/-- C3: the claim states that `read_file` refuses whenever the canonical
resolution of the requested path escapes the docs root.  The code's guard
is `resolvedPath.startsWith(resolvedDocsPath)`, a bare string-prefix test:
against root `/docs`, the request `../docs-evil/secret.md` resolves to
`/docs-evil/secret.md`, which escapes the root yet passes the guard
(first two conjuncts).  The spec's own scenario `../../etc/passwd` is
refused (third conjunct), so the flaw is confined to sibling paths that
extend the root name. -/
theorem readFile_guard_prefix_bypass :
    readFileGuardAllows "/docs".data "../docs-evil/secret.md".data = true ∧
    isWithinRoot (resolveAbs "/docs".data)
      (resolveAbs ("/docs".data ++ '/' :: "../docs-evil/secret.md".data)) = false ∧
    readFileGuardAllows "/docs".data "../../etc/passwd".data = false := by
  refine ⟨?_, ?_, ?_⟩ <;> decide

/-! ## Claim C9: deleteDocumentChunks is idempotent -/

/-- C9: deleting a document's chunks twice leaves the same store as
deleting them once — the second call finds no chunk for the document,
hence no embedding id to purge, and every filter is the identity. -/
theorem deleteDocumentChunks_idempotent (s : DbState) (documentId : Nat) :
    deleteDocumentChunks (deleteDocumentChunks s documentId) documentId
      = deleteDocumentChunks s documentId := by
  unfold deleteDocumentChunks
  simp [List.filter_filter]

/-! ## Claim C6: addChunk checks the embedding dimension -/

/-- C6: `addChunk` fails with a dimension-mismatch error whenever the
embedding vector's length differs from the store's configured dimension
(never truncating or padding), and on agreement returns the fresh chunk id
having appended exactly one chunk row and its paired embedding row. -/
theorem addChunk_dimension_check (s : DbState) (chunk : ChunkData) (embedding : List ℚ) :
    (embedding.length ≠ s.dimension →
      (addChunk s chunk embedding).2 = Except.error DbError.dimensionMismatch) ∧
    (embedding.length = s.dimension →
      (addChunk s chunk embedding).2 = Except.ok s.nextChunkId ∧
      (addChunk s chunk embedding).1.chunks = s.chunks ++ [mkChunkRow s.nextChunkId chunk] ∧
      (addChunk s chunk embedding).1.embeddings =
        s.embeddings ++ [{ chunkId := s.nextChunkId, embedding := embedding }]) := by
  constructor
  · intro h
    simp [addChunk, h]
  · intro h
    refine ⟨?_, ?_, ?_⟩ <;> simp [addChunk, h]

/-- Witness for C6 at a concrete store: a 1-vector against dimension 2 is
rejected, a 2-vector is accepted with id 1. -/
theorem addChunk_dimension_check_witness :
    (([1] : List ℚ).length ≠ (emptyDb 2).dimension) ∧
    (addChunk (emptyDb 2)
        { documentId := 1, content := "c", chunkIndex := 0, lineStart := 1,
          lineEnd := 1, heading := none } [1]).2
      = Except.error DbError.dimensionMismatch ∧
    (([1, 0] : List ℚ).length = (emptyDb 2).dimension) ∧
    (addChunk (emptyDb 2)
        { documentId := 1, content := "c", chunkIndex := 0, lineStart := 1,
          lineEnd := 1, heading := none } [1, 0]).2 = Except.ok (emptyDb 2).nextChunkId := by
  refine ⟨by decide, (addChunk_dimension_check (emptyDb 2) _ [1]).1 (by decide), by decide,
    ((addChunk_dimension_check (emptyDb 2) _ [1, 0]).2 (by decide)).1⟩

/-! ## Claim C5: documentNeedsUpdate after upsertDocument -/

/-- After an upsert the document found at the metadata's path carries the
metadata's hash: in the update branch only filePath-preserving edits are
applied to the found row, in the insert branch the fresh row is found at
the end of the table. -/
theorem find?_documents_upsert (s : DbState) (meta : DocumentMetadata) (now : Int) :
    ∃ d, (upsertDocument s meta now).1.documents.find?
        (fun d => d.filePath == meta.filePath) = some d ∧ d.fileHash = meta.fileHash := by
  unfold upsertDocument
  cases hfind : s.documents.find? (fun d => d.filePath == meta.filePath) with
  | none =>
    simp only [hfind]
    rw [List.find?_append, hfind]
    simp
  | some ex =>
    simp only [hfind]
    rw [List.find?_map]
    have hcomp : ((fun d : DocumentRow => d.filePath == meta.filePath) ∘ fun d =>
        if d.id = ex.id then
          { d with title := meta.title, lastModified := meta.lastModified,
                   fileHash := meta.fileHash, updatedAt := now }
        else d) = fun d => d.filePath == meta.filePath := by
      funext d
      by_cases h : d.id = ex.id <;> simp [h]
    rw [hcomp, hfind]
    exact ⟨_, rfl, by simp⟩

/-- C5: immediately after `upsertDocument` with a given path and hash,
`documentNeedsUpdate` at that exact pair is false and at any other hash is
true; and at a path with no document it is always true. -/
theorem documentNeedsUpdate_after_upsert (s : DbState) (meta : DocumentMetadata) (now : Int) :
    documentNeedsUpdate (upsertDocument s meta now).1 meta.filePath meta.fileHash = false ∧
    (∀ h : String, h ≠ meta.fileHash →
      documentNeedsUpdate (upsertDocument s meta now).1 meta.filePath h = true) ∧
    (∀ filePath fileHash : String, getDocumentByPath s filePath = none →
      documentNeedsUpdate s filePath fileHash = true) := by
  obtain ⟨d, hd, hh⟩ := find?_documents_upsert s meta now
  refine ⟨?_, ?_, ?_⟩
  · unfold documentNeedsUpdate
    rw [hd]
    simp [hh]
  · intro h hne
    unfold documentNeedsUpdate
    rw [hd]
    simp only [hh, bne_iff_ne, ne_eq, decide_eq_true_eq]
    exact Ne.symm hne
  · intro fp fh hnone
    unfold getDocumentByPath at hnone
    unfold documentNeedsUpdate
    rw [hnone]

/-- Witness for C5 on the empty store with path `a.md`, hash `h`, a
different hash `x`, and the unindexed path `b.md`. -/
theorem documentNeedsUpdate_after_upsert_witness :
    (("x" : String) ≠ "h") ∧
    (getDocumentByPath (emptyDb 1) "b.md" = none) ∧
    documentNeedsUpdate
      (upsertDocument (emptyDb 1)
        { filePath := "a.md", title := "T", lastModified := 0, fileHash := "h" } 7).1
      "a.md" "h" = false ∧
    documentNeedsUpdate
      (upsertDocument (emptyDb 1)
        { filePath := "a.md", title := "T", lastModified := 0, fileHash := "h" } 7).1
      "a.md" "x" = true ∧
    documentNeedsUpdate (emptyDb 1) "b.md" "h" = true := by
  refine ⟨by decide, rfl,
    (documentNeedsUpdate_after_upsert (emptyDb 1)
      { filePath := "a.md", title := "T", lastModified := 0, fileHash := "h" } 7).1,
    (documentNeedsUpdate_after_upsert (emptyDb 1)
      { filePath := "a.md", title := "T", lastModified := 0, fileHash := "h" } 7).2.1 "x"
      (by decide),
    (documentNeedsUpdate_after_upsert (emptyDb 1)
      { filePath := "a.md", title := "T", lastModified := 0, fileHash := "h" } 7).2.2
      "b.md" "h" rfl⟩

/-! ## Claim C7: deleteDocumentChunks purges exactly one document's chunks -/

/-- Folding `deleteDocumentChunks` over any list of documents never
touches the `documents` table. -/
theorem foldl_delete_documents (l : List DocumentRow) :
    ∀ st : DbState,
      (l.foldl (fun st d => deleteDocumentChunks st d.id) st).documents = st.documents := by
  induction l with
  | nil => intro st; rfl
  | cons x xs ih =>
    intro st
    rw [List.foldl_cons, ih]
    rfl

/-- C7: `deleteDocumentChunks` leaves the `documents` table (hence every
document row's path, title, hash and timestamps) untouched, keeps exactly
the chunk rows of other documents, and removes exactly the embedding rows
paired (by chunk id) with the removed chunks; and the incremental update
pass's delete phase, which folds this operation over the disappeared
documents, also leaves every document row in place. -/
theorem deleteDocumentChunks_frame (s : DbState) (documentId : Nat) :
    (deleteDocumentChunks s documentId).documents = s.documents ∧
    (∀ c : ChunkRow, c ∈ (deleteDocumentChunks s documentId).chunks ↔
      c ∈ s.chunks ∧ ¬ c.documentId = documentId) ∧
    (∀ e : EmbeddingRow, e ∈ (deleteDocumentChunks s documentId).embeddings ↔
      e ∈ s.embeddings ∧ ∀ c ∈ s.chunks, c.documentId = documentId → ¬ e.chunkId = c.id) ∧
    (∀ currentPaths : List String,
      (updatePurgeMissing s currentPaths).documents = s.documents) := by
  refine ⟨rfl, ?_, ?_, ?_⟩
  · intro c
    simp [deleteDocumentChunks, List.mem_filter]
  · intro e
    simp only [deleteDocumentChunks, List.mem_filter, List.mem_map, Bool.not_eq_true',
      decide_eq_false_iff_not, not_exists, not_and, beq_iff_eq]
    constructor
    · rintro ⟨he, hno⟩
      refine ⟨he, fun c hc hdoc heq => ?_⟩
      exact hno c ⟨hc, hdoc⟩ heq.symm
    · rintro ⟨he, hno⟩
      refine ⟨he, fun c hcp heq => ?_⟩
      exact hno c hcp.1 hcp.2 heq.symm
  · intro ps
    exact foldl_delete_documents _ s

/-- Witness for C7 on the concrete example store: deleting document 1
keeps the document row and keeps exactly the chunk of document 2. -/
theorem deleteDocumentChunks_frame_witness :
    (deleteDocumentChunks dbExample 1).documents = dbExample.documents ∧
    ((⟨2, 2, "c2", 0, 1, 1, none⟩ : ChunkRow) ∈ (deleteDocumentChunks dbExample 1).chunks ↔
      (⟨2, 2, "c2", 0, 1, 1, none⟩ : ChunkRow) ∈ dbExample.chunks ∧ ¬ (2 : Nat) = 1) :=
  ⟨(deleteDocumentChunks_frame dbExample 1).1,
    (deleteDocumentChunks_frame dbExample 1).2.1 _⟩

/-! ## Claim C10: every chunk's content is trimmed -/

/-- Every chunk emitted by the paragraph loop has trimmed content. -/
theorem splitParasLoop_trimmed (sec : Section) (M ov : Nat) :
    ∀ (paras : List Str) (cur : Str) (cs cl : Int) (ci : Nat),
      ∀ c ∈ splitParasLoop sec M ov paras cur cs cl ci, trim c.content = c.content := by
  intro paras
  induction paras with
  | nil =>
    intro cur cs cl ci c hc
    simp only [splitParasLoop] at hc
    split at hc
    · rw [List.mem_singleton] at hc
      subst hc
      exact trim_trim cur
    · cases hc
  | cons p rest ih =>
    intro cur cs cl ci c hc
    simp only [splitParasLoop] at hc
    split at hc
    · rcases List.mem_cons.1 hc with rfl | hc'
      · exact trim_trim cur
      · exact ih _ _ _ _ c hc'
    · exact ih _ _ _ _ c hc

/-- Every chunk emitted by the flat line loop has trimmed content. -/
theorem flatLoop_trimmed (M ov : Nat) :
    ∀ (ls : List Str) (cur : Str) (cs cl : Int) (ci : Nat),
      ∀ c ∈ flatLoop M ov ls cur cs cl ci, trim c.content = c.content := by
  intro ls
  induction ls with
  | nil =>
    intro cur cs cl ci c hc
    simp only [flatLoop] at hc
    split at hc
    · rw [List.mem_singleton] at hc
      subst hc
      exact trim_trim cur
    · cases hc
  | cons l rest ih =>
    intro cur cs cl ci c hc
    simp only [flatLoop] at hc
    split at hc
    · rcases List.mem_cons.1 hc with rfl | hc'
      · exact trim_trim cur
      · exact ih _ _ _ _ c hc'
    · exact ih _ _ _ _ c hc

/-- Every chunk emitted for a section has trimmed content. -/
theorem splitSection_trimmed (sec : Section) (M ov : Nat) :
    ∀ c ∈ splitSection sec M ov, trim c.content = c.content := by
  intro c hc
  simp only [splitSection] at hc
  split at hc
  · rw [List.mem_singleton] at hc
    subst hc
    exact trim_trim sec.content
  · exact splitParasLoop_trimmed sec M ov _ _ _ _ _ c hc

/-- Re-indexing only renumbers: every member's content comes from the
underlying list. -/
theorem mem_reindexFrom {c : Chunk} :
    ∀ {i : Nat} {cs : List Chunk}, c ∈ reindexFrom i cs → ∃ c₀ ∈ cs, c.content = c₀.content := by
  intro i cs
  induction cs generalizing i with
  | nil => intro h; cases h
  | cons x xs ih =>
    intro h
    rcases List.mem_cons.1 h with h | h
    · exact ⟨x, List.mem_cons_self _ _, by rw [h]⟩
    · obtain ⟨c₀, hm, he⟩ := ih h
      exact ⟨c₀, List.mem_cons_of_mem _ hm, he⟩

/-- C10: every chunk returned by `chunkMarkdown` — through the
heading-respecting path and the flat path alike — has content equal to its
own trim, i.e. carries no leading or trailing whitespace. -/
theorem chunkMarkdown_contents_trimmed (content : Str) (options : ChunkingOptions) :
    ∀ c ∈ chunkMarkdown content options, trim c.content = c.content := by
  intro c hc
  unfold chunkMarkdown at hc
  split at hc
  · obtain ⟨c₀, hc₀, he⟩ := mem_reindexFrom hc
    rw [he]
    obtain ⟨l, hl, hcl⟩ := List.mem_flatten.1 hc₀
    obtain ⟨sec, _, rfl⟩ := List.mem_map.1 hl
    exact splitSection_trimmed sec _ _ c₀ hcl
  · exact flatLoop_trimmed _ _ _ _ _ _ _ c hc

/-- Witness for C10 at a concrete document. -/
theorem chunkMarkdown_contents_trimmed_witness :
    ((⟨"hi".data, 0, 1, 1, none⟩ : Chunk) ∈ chunkMarkdown "hi".data defaultOptions) ∧
    trim "hi".data = "hi".data :=
  ⟨by decide,
    chunkMarkdown_contents_trimmed "hi".data defaultOptions
      (⟨"hi".data, 0, 1, 1, none⟩ : Chunk) (by decide)⟩

/-! ## Claim C1: chunk sizes against maxChunkSize -/

/-- Size invariant of the paragraph loop: if every pending paragraph is at
most `P` long and the buffer respects the bound
`max M (ov + 2 + P)`, then so does every emitted chunk (for a positive
overlap, so that the reseeded overlap text is really at most `ov`
characters). -/
theorem splitParasLoop_bound (sec : Section) (M ov P : Nat) (hov : 1 ≤ ov) :
    ∀ (paras : List Str) (cur : Str) (cs cl : Int) (ci : Nat),
      (∀ p ∈ paras, p.length ≤ P) →
      cur.length ≤ max M (ov + 2 + P) →
      ∀ c ∈ splitParasLoop sec M ov paras cur cs cl ci,
        c.content.length ≤ max M (ov + 2 + P) := by
  intro paras
  induction paras with
  | nil =>
    intro cur cs cl ci hp hcur c hc
    simp only [splitParasLoop] at hc
    split at hc
    · rw [List.mem_singleton] at hc
      subst hc
      exact le_trans (trim_length_le cur) hcur
    · cases hc
  | cons p rest ih =>
    intro cur cs cl ci hp hcur c hc
    have hplen : p.length ≤ P := hp p (List.mem_cons_self _ _)
    simp only [splitParasLoop] at hc
    split at hc
    case isTrue hclose =>
      rcases List.mem_cons.1 hc with rfl | hc'
      · exact le_trans (trim_length_le cur) hcur
      · refine ih _ _ _ _ (fun q hq => hp q (List.mem_cons_of_mem _ hq)) ?_ c hc'
        have hslice : (jsSliceNeg cur ov).length ≤ ov := jsSliceNeg_length_le cur hov
        have hlen : (jsSliceNeg cur ov ++ '\n' :: '\n' :: p).length
            = (jsSliceNeg cur ov).length + (p.length + 2) := by
          simp [List.length_append]
        rw [hlen]
        have : (jsSliceNeg cur ov).length + (p.length + 2) ≤ ov + 2 + P := by omega
        exact le_trans this (le_max_right _ _)
    case isFalse hopen =>
      refine ih _ _ _ _ (fun q hq => hp q (List.mem_cons_of_mem _ hq)) ?_ c hc
      by_cases hcur0 : cur = []
      · subst hcur0
        rw [if_neg (by simp)]
        exact le_trans (le_trans hplen (by omega)) (le_max_right _ (ov + 2 + P))
      · have hM : cur.length + p.length + 2 ≤ M := by
          rcases not_and_or.1 hopen with h1 | h2
          · omega
          · exact absurd hcur0 (by simpa using h2)
        rw [if_pos hcur0]
        have hlen : (cur ++ '\n' :: '\n' :: p).length = cur.length + (p.length + 2) := by
          simp [List.length_append]
        rw [hlen]
        exact le_trans (by omega) (le_max_left M (ov + 2 + P))

/-- Size invariant of the flat line loop, analogous to
`splitParasLoop_bound` with a one-character line separator. -/
theorem flatLoop_bound (M ov P : Nat) (hov : 1 ≤ ov) :
    ∀ (ls : List Str) (cur : Str) (cs cl : Int) (ci : Nat),
      (∀ l ∈ ls, l.length ≤ P) →
      cur.length ≤ max M (ov + 2 + P) →
      ∀ c ∈ flatLoop M ov ls cur cs cl ci,
        c.content.length ≤ max M (ov + 2 + P) := by
  intro ls
  induction ls with
  | nil =>
    intro cur cs cl ci hp hcur c hc
    simp only [flatLoop] at hc
    split at hc
    · rw [List.mem_singleton] at hc
      subst hc
      exact le_trans (trim_length_le cur) hcur
    · cases hc
  | cons l rest ih =>
    intro cur cs cl ci hp hcur c hc
    have hllen : l.length ≤ P := hp l (List.mem_cons_self _ _)
    simp only [flatLoop] at hc
    split at hc
    case isTrue hclose =>
      rcases List.mem_cons.1 hc with rfl | hc'
      · exact le_trans (trim_length_le cur) hcur
      · refine ih _ _ _ _ (fun q hq => hp q (List.mem_cons_of_mem _ hq)) ?_ c hc'
        have hslice : (jsSliceNeg cur ov).length ≤ ov := jsSliceNeg_length_le cur hov
        have hlen : (jsSliceNeg cur ov ++ '\n' :: l).length
            = (jsSliceNeg cur ov).length + (l.length + 1) := by
          simp [List.length_append]
        rw [hlen]
        have : (jsSliceNeg cur ov).length + (l.length + 1) ≤ ov + 2 + P := by omega
        exact le_trans this (le_max_right _ _)
    case isFalse hopen =>
      refine ih _ _ _ _ (fun q hq => hp q (List.mem_cons_of_mem _ hq)) ?_ c hc
      by_cases hcur0 : cur = []
      · subst hcur0
        rw [if_neg (by simp)]
        simpa using le_trans (le_trans hllen (by omega))
          (le_max_right M (ov + 2 + P))
      · have hM : cur.length + l.length + 1 ≤ M := by
          rcases not_and_or.1 hopen with h1 | h2
          · omega
          · exact absurd hcur0 (by simpa using h2)
        rw [if_pos hcur0]
        have hlen : (cur ++ '\n' :: l).length = cur.length + (l.length + 1) := by
          simp [List.length_append]
        rw [hlen]
        exact le_trans (by omega) (le_max_left M (ov + 2 + P))

/-- Chunk-size bound for one section: a fitting section is emitted whole
(at most `M`), a split section obeys the loop invariant. -/
theorem splitSection_bound (sec : Section) (M ov P : Nat) (hov : 1 ≤ ov)
    (hP : maxLen (splitParas (trim sec.content)) ≤ P) :
    ∀ c ∈ splitSection sec M ov, c.content.length ≤ max M (ov + 2 + P) := by
  intro c hc
  simp only [splitSection] at hc
  split at hc
  case isTrue hfit =>
    rw [List.mem_singleton] at hc
    subst hc
    exact le_trans hfit (le_max_left _ _)
  case isFalse =>
    exact splitParasLoop_bound sec M ov P hov _ [] _ _ _
      (fun p hp => le_trans (le_maxLen hp) hP) (by simp) c hc

/-- An element's value is below the running foldr-maximum. -/
theorem le_foldr_max {β : Type} (f : β → Nat) :
    ∀ (l : List β) (x : β), x ∈ l → f x ≤ l.foldr (fun s acc => max (f s) acc) 0 := by
  intro l
  induction l with
  | nil => intro x hx; cases hx
  | cons y ys ih =>
    intro x hx
    rcases List.mem_cons.1 hx with rfl | hx
    · exact le_max_left _ _
    · exact le_trans (ih x hx) (le_max_right _ _)

/-- Any section's longest paragraph is below the document-wide unit
bound. -/
theorem sec_le_unitBound {cleaned : Str} {sec : Section}
    (hs : sec ∈ parseIntoSections cleaned) :
    maxLen (splitParas (trim sec.content)) ≤ unitBound cleaned true := by
  simpa [unitBound] using
    le_foldr_max (fun sec => maxLen (splitParas (trim sec.content))) _ sec hs

/-- C1 — counterexample to the claim as stated.  With
`maxChunkSize = 5, chunkOverlap = 3, respectHeadings = true` and the input
`"aaaa\n\nbbbb\n\ncccc"`, every paragraph of every section has length 4
(second conjunct: the per-section longest-paragraph list is `[4]`), so no
chunk "contains a single paragraph whose own length exceeds 5"; yet the
emitted chunk lengths are `[4, 9, 9]`: the overlap-seeded chunks
(`"aaa\n\nbbbb"` and `"bbb\n\ncccc"`) exceed the limit although their
single paragraph does not. -/
theorem chunkMarkdown_size_claim_counterexample :
    ((chunkMarkdown "aaaa\n\nbbbb\n\ncccc".data ⟨5, 3, true⟩).map
      (fun c => c.content.length) = [4, 9, 9]) ∧
    ((parseIntoSections (stripMdxComponents "aaaa\n\nbbbb\n\ncccc".data)).map
      (fun sec => maxLen (splitParas (trim sec.content))) = [4]) :=
  ⟨by decide, by decide⟩

/-- C1 as amended: for a positive `chunkOverlap` every chunk emitted by
`chunkMarkdown` has length at most
`max maxChunkSize (chunkOverlap + 2 + U)`, where `U` is the longest single
paragraph of any section (respectHeadings) or the longest line (flat
path).  In particular a chunk can exceed `maxChunkSize` only by consisting
of at most `chunkOverlap` characters of overlap text, a separator, and one
paragraph/line — which need not itself exceed the limit. -/
theorem chunkMarkdown_size_bound (content : Str) (options : ChunkingOptions)
    (hov : 1 ≤ options.chunkOverlap) :
    ∀ c ∈ chunkMarkdown content options,
      c.content.length ≤ max options.maxChunkSize
        (options.chunkOverlap + 2 +
          unitBound (stripMdxComponents content) options.respectHeadings) := by
  intro c hc
  unfold chunkMarkdown at hc
  split at hc
  case isTrue hrh =>
    rw [hrh]
    obtain ⟨c₀, hc₀, he⟩ := mem_reindexFrom hc
    rw [he]
    obtain ⟨l, hl, hcl⟩ := List.mem_flatten.1 hc₀
    obtain ⟨sec, hsec, rfl⟩ := List.mem_map.1 hl
    exact splitSection_bound sec _ _ _ hov (sec_le_unitBound hsec) c₀ hcl
  case isFalse hrh =>
    rw [Bool.not_eq_true] at hrh
    rw [hrh]
    exact flatLoop_bound _ _ _ hov _ [] _ _ _ (fun l hl => le_maxLen hl) (by simp) c hc

/-- Witness for the amended C1 at a concrete document and the default
options. -/
theorem chunkMarkdown_size_bound_witness :
    (1 ≤ defaultOptions.chunkOverlap) ∧
    ((⟨"x".data, 0, 1, 1, none⟩ : Chunk) ∈ chunkMarkdown "x".data defaultOptions) ∧
    ("x".data).length ≤ max defaultOptions.maxChunkSize
      (defaultOptions.chunkOverlap + 2 +
        unitBound (stripMdxComponents "x".data) defaultOptions.respectHeadings) :=
  ⟨by decide, by decide,
    chunkMarkdown_size_bound "x".data defaultOptions (by decide)
      (⟨"x".data, 0, 1, 1, none⟩ : Chunk) (by decide)⟩

/-! ## Claim C4: search result count, ordering and scores -/

/-- A joined search result carries the distance of its KNN hit and the
derived score `1 / (1 + distance)`. -/
theorem searchHit_fields {s : DbState} {p : EmbeddingRow × ℚ} {r : SearchResult}
    (h : searchHit s p = some r) : r.distance = p.2 ∧ r.score = 1 / (1 + p.2) := by
  unfold searchHit at h
  split at h
  · cases h
  · split at h
    · cases h
    · cases h
      exact ⟨rfl, rfl⟩

/-- The squared Euclidean distance is non-negative. -/
theorem sqDist_nonneg : ∀ q v : List ℚ, 0 ≤ sqDist q v := by
  intro q
  induction q with
  | nil => intro v; cases v <;> simp [sqDist]
  | cons x xs ih =>
    intro v
    cases v with
    | nil => simp [sqDist]
    | cons y ys =>
      simp only [sqDist]
      have h1 := ih ys
      have h2 : 0 ≤ (x - y) * (x - y) := mul_self_nonneg _
      linarith

/-- The `k` nearest hits come out of the KNN sort pairwise ordered by
distance. -/
theorem sorted_knn (s : DbState) (dist : List ℚ → List ℚ → ℚ) (q : List ℚ) (k : Nat) :
    (((s.embeddings.map (fun e => (e, dist q e.embedding))).mergeSort
      (fun a b => decide (a.2 ≤ b.2))).take k).Pairwise (fun a b => a.2 ≤ b.2) := by
  have hs := @List.sorted_mergeSort (EmbeddingRow × ℚ) (fun a b => decide (a.2 ≤ b.2))
    (fun a b c hab hbc => by
      simp only [decide_eq_true_eq] at hab hbc ⊢
      exact le_trans hab hbc)
    (fun a b => by
      simp only [Bool.or_eq_true, decide_eq_true_eq]
      exact le_total a.2 b.2)
    (s.embeddings.map (fun e => (e, dist q e.embedding)))
  exact List.Pairwise.sublist (List.take_sublist _ _)
    (hs.imp (fun h => of_decide_eq_true h))

/-- The joined result list inherits the distance ordering of the hits. -/
theorem pairwise_take_filterMap_le (s : DbState) (dist : List ℚ → List ℚ → ℚ)
    (q : List ℚ) (k : Nat) :
    ((((s.embeddings.map (fun e => (e, dist q e.embedding))).mergeSort
      (fun a b => decide (a.2 ≤ b.2))).take k).filterMap (searchHit s)).Pairwise
      (fun a b => a.distance ≤ b.distance) := by
  refine List.pairwise_filterMap.2 ?_
  refine (sorted_knn s dist q k).imp ?_
  intro a b hab r hr r' hr'
  rw [Option.mem_def] at hr hr'
  rw [(searchHit_fields hr).1, (searchHit_fields hr').1]
  exact hab

/-- Every joined result's distance is the metric's value at a stored
embedding (hence non-negative under the metric's non-negativity), and its
score is the derived transform of its own distance. -/
theorem search_mem_facts (s : DbState) (dist : List ℚ → List ℚ → ℚ) (q : List ℚ) (k : Nat)
    (hd : ∀ e ∈ s.embeddings, 0 ≤ dist q e.embedding) :
    ∀ r ∈ (((s.embeddings.map (fun e => (e, dist q e.embedding))).mergeSort
      (fun a b => decide (a.2 ≤ b.2))).take k).filterMap (searchHit s),
      0 ≤ r.distance ∧ r.score = 1 / (1 + r.distance) := by
  intro r hr
  obtain ⟨p, hp, hpr⟩ := List.mem_filterMap.1 hr
  have hfields := searchHit_fields hpr
  have hpL := (List.take_sublist k _).subset hp
  have hpm := List.mem_mergeSort.1 hpL
  obtain ⟨e, he, hpe⟩ := List.mem_map.1 hpm
  constructor
  · subst hpe
    rw [hfields.1]
    exact hd e he
  · rw [hfields.2, hfields.1]

/-- C4: for a query vector of the configured dimension, `k ≥ 1`, and a
distance metric that is non-negative on the stored embeddings, `search`
succeeds with at most `k` results, sorted by non-decreasing distance and
equivalently by non-increasing score, and every result's score equals
`1 / (1 + distance)`, lies in `(0, 1]`, and equals 1 exactly at
distance 0. -/
theorem search_spec (s : DbState) (dist : List ℚ → List ℚ → ℚ) (q : List ℚ) (k : Nat)
    (hq : q.length = s.dimension) (_hk : 1 ≤ k)
    (hd : ∀ e ∈ s.embeddings, 0 ≤ dist q e.embedding) :
    ∃ rs : List SearchResult, search s dist q k = Except.ok rs ∧
      rs.length ≤ k ∧
      rs.Pairwise (fun a b => a.distance ≤ b.distance) ∧
      rs.Pairwise (fun a b => b.score ≤ a.score) ∧
      ∀ r ∈ rs, r.score = 1 / (1 + r.distance) ∧ 0 < r.score ∧ r.score ≤ 1 ∧
        (r.score = 1 ↔ r.distance = 0) := by
  refine ⟨((s.embeddings.map (fun e => (e, dist q e.embedding))).mergeSort
      (fun a b => decide (a.2 ≤ b.2))).take k |>.filterMap (searchHit s), ?_, ?_, ?_, ?_, ?_⟩
  · unfold search
    rw [if_pos hq]
  · calc ((((s.embeddings.map (fun e => (e, dist q e.embedding))).mergeSort
        (fun a b => decide (a.2 ≤ b.2))).take k).filterMap (searchHit s)).length
        ≤ (((s.embeddings.map (fun e => (e, dist q e.embedding))).mergeSort
          (fun a b => decide (a.2 ≤ b.2))).take k).length :=
          List.length_filterMap_le _ _
      _ ≤ k := by simp [List.length_take]
  · exact pairwise_take_filterMap_le s dist q k
  · refine List.Pairwise.imp_of_mem ?_ (pairwise_take_filterMap_le s dist q k)
    intro a b ha hb hab
    obtain ⟨hda, hsa⟩ := search_mem_facts s dist q k hd a ha
    obtain ⟨hdb, hsb⟩ := search_mem_facts s dist q k hd b hb
    rw [hsa, hsb]
    have h1 : (0:ℚ) < 1 + a.distance := by linarith
    have h2 : (0:ℚ) < 1 + b.distance := by linarith
    rw [div_le_div_iff₀ h2 h1]
    linarith
  · intro r hr
    obtain ⟨hd0, hs0⟩ := search_mem_facts s dist q k hd r hr
    have hpos : (0:ℚ) < 1 + r.distance := by linarith
    refine ⟨hs0, ?_, ?_, ?_⟩
    · rw [hs0]
      exact div_pos one_pos hpos
    · rw [hs0, div_le_one hpos]
      linarith
    · rw [hs0]
      constructor
      · intro h1
        rw [div_eq_one_iff_eq (ne_of_gt hpos)] at h1
        linarith
      · intro h0
        rw [h0]
        norm_num

/-- Witness for C4 on the concrete example store with the squared
Euclidean metric, the query `[1, 0]` and `k = 2`. -/
theorem search_spec_witness :
    (([1, 0] : List ℚ).length = dbExample.dimension) ∧
    (1 ≤ 2) ∧
    (∀ e ∈ dbExample.embeddings, 0 ≤ sqDist [1, 0] e.embedding) ∧
    (∃ rs : List SearchResult, search dbExample sqDist [1, 0] 2 = Except.ok rs ∧
      rs.length ≤ 2 ∧
      rs.Pairwise (fun a b => a.distance ≤ b.distance) ∧
      rs.Pairwise (fun a b => b.score ≤ a.score) ∧
      ∀ r ∈ rs, r.score = 1 / (1 + r.distance) ∧ 0 < r.score ∧ r.score ≤ 1 ∧
        (r.score = 1 ↔ r.distance = 0)) :=
  ⟨rfl, by norm_num, fun e he => sqDist_nonneg [1, 0] e.embedding,
    search_spec dbExample sqDist [1, 0] 2 rfl (by norm_num)
      (fun e he => sqDist_nonneg [1, 0] e.embedding)⟩

/-! ## Claim C8: extractTitle -/

/-- Segments produced by splitting on a character do not contain it. -/
theorem not_mem_of_mem_splitOnChar (sep : Char) :
    ∀ (s : Str) (l : Str), l ∈ splitOnChar sep s → sep ∉ l := by
  intro s
  induction s with
  | nil =>
    intro l hl
    rw [List.mem_singleton.1 hl]
    exact List.not_mem_nil sep
  | cons c cs ih =>
    intro l hl
    simp only [splitOnChar] at hl
    split at hl
    · rcases List.mem_cons.1 hl with rfl | hl'
      · exact List.not_mem_nil sep
      · exact ih l hl'
    case isFalse hcs =>
      cases hsplit : splitOnChar sep cs with
      | nil =>
        rw [hsplit] at hl
        rw [List.mem_singleton.1 hl]
        intro hmem
        exact hcs (List.mem_singleton.1 hmem).symm
      | cons t ts =>
        rw [hsplit] at hl
        rcases List.mem_cons.1 hl with rfl | hl'
        · intro hmem
          rcases List.mem_cons.1 hmem with heq | hmem'
          · exact hcs heq.symm
          · exact ih t (hsplit ▸ List.mem_cons_self t ts) hmem'
        · exact ih l (hsplit ▸ List.mem_cons_of_mem t hl')

theorem takeWhile_append_of_not_all {p : Char → Bool} {A B : Str}
    (h : ¬ ∀ a ∈ A, p a = true) : (A ++ B).takeWhile p = A.takeWhile p := by
  rw [List.takeWhile_append, if_neg ?_]
  intro hlen
  exact h (List.takeWhile_eq_self_iff.1 ((A.takeWhile_prefix p).eq_of_length hlen))

theorem dropWhile_append_of_not_all {p : Char → Bool} {A B : Str}
    (h : ¬ ∀ a ∈ A, p a = true) : (A ++ B).dropWhile p = A.dropWhile p ++ B := by
  rw [List.dropWhile_append, if_neg ?_]
  intro hemp
  exact h (List.dropWhile_eq_nil_iff.1 (List.isEmpty_iff.1 hemp))

theorem takeWhile_append_of_all {p : Char → Bool} {A B : Str}
    (h : ∀ a ∈ A, p a = true) : (A ++ B).takeWhile p = A ++ B.takeWhile p := by
  rw [List.takeWhile_append, if_pos ?_]
  rw [List.takeWhile_eq_self_iff.2 h]

/-- The `\s+(.+)$` tail accepts a well-formed heading line (one whose text
after the `#` contains a non-whitespace character) without spilling past
the line's end, and yields the line remainder, trimmed. -/
theorem tryTitle_line (d : Char) (r' : Str) (rest : List Str)
    (hd : isWS d = true) (hnl : ('\n' : Char) ∉ d :: r')
    (hnall : ¬ ∀ x ∈ d :: r', isWS x = true) :
    tryTitle (d :: (r' ++ restStream rest)) = some (trim (d :: r')) := by
  show tryTitle ((d :: r') ++ restStream rest) = some (trim (d :: r'))
  simp only [tryTitle]
  rw [takeWhile_append_of_not_all hnall, dropWhile_append_of_not_all hnall]
  have hw : (d :: r').takeWhile isWS ≠ [] := by
    simp [List.takeWhile_cons, hd]
  rw [if_neg hw]
  have hDne : (d :: r').dropWhile isWS ≠ [] := by
    intro h0
    exact hnall (List.dropWhile_eq_nil_iff.1 h0)
  have ha : (d :: r').dropWhile isWS ++ restStream rest ≠ [] := by
    intro h0
    exact hDne (List.append_eq_nil.1 h0).1
  rw [if_pos ha]
  have hDnl : ∀ x ∈ (d :: r').dropWhile isWS, (x != '\n') = true := by
    intro x hx
    have hxl : x ∈ d :: r' := (List.dropWhile_suffix isWS).subset hx
    have hne : x ≠ '\n' := fun he => hnl (he ▸ hxl)
    simpa using hne
  rw [takeWhile_append_of_all hDnl]
  have hRS : (restStream rest).takeWhile (fun c => c != '\n') = [] := by
    cases rest with
    | nil => rfl
    | cons l ls => simp [restStream, List.takeWhile_cons]
  rw [hRS, List.append_nil, trim_dropWhile]

/-- On contents whose `#`-initial lines all carry non-blank heading text,
the regex scan agrees with the spec's line-by-line reading. -/
theorem findH1Lines_eq_spec : ∀ ls : List Str,
    (∀ l ∈ ls, ('\n' : Char) ∉ l) →
    (∀ l ∈ ls, l.head? = some '#' → trim (l.drop 1) ≠ []) →
    findH1Lines ls = ls.findSome? specH1Text := by
  intro ls
  induction ls with
  | nil => intro _ _; rfl
  | cons l rest ih =>
    intro hnl H
    have ihr := ih (fun x hx => hnl x (List.mem_cons_of_mem _ hx))
      (fun x hx => H x (List.mem_cons_of_mem _ hx))
    rw [List.findSome?_cons]
    cases l with
    | nil =>
      simp only [findH1Lines, specH1Text]
      exact ihr
    | cons c r =>
      by_cases hc : c = '#'
      · subst hc
        have htrim : trim r ≠ [] := H _ (List.mem_cons_self _ _) rfl
        cases r with
        | nil => exact absurd rfl htrim
        | cons d r' =>
          have hnll : ('\n' : Char) ∉ ('#' :: d :: r') := hnl _ (List.mem_cons_self _ _)
          have hnl2 : ('\n' : Char) ∉ (d :: r') := fun hm => hnll (List.mem_cons_of_mem _ hm)
          have hnall : ¬ ∀ x ∈ d :: r', isWS x = true :=
            fun hall => htrim (trim_eq_nil_of_all hall)
          by_cases hd : isWS d = true
          · have h1 : findH1Lines (('#' :: d :: r') :: rest) = some (trim (d :: r')) := by
              simp [findH1Lines, tryTitle_line d r' rest hd hnl2 hnall]
            have h2 : specH1Text ('#' :: d :: r') = some (trim (d :: r')) := by
              simp [specH1Text, hd]
            rw [h1, h2]
          · have htry : tryTitle (d :: (r' ++ restStream rest)) = none := by
              simp [tryTitle, List.takeWhile_cons, hd]
            have h1 : findH1Lines (('#' :: d :: r') :: rest) = findH1Lines rest := by
              simp [findH1Lines, htry]
            have h2 : specH1Text ('#' :: d :: r') = none := by
              simp [specH1Text, hd]
            rw [h1, h2]
            exact ihr
      · have h1 : findH1Lines ((c :: r) :: rest) = findH1Lines rest := by
          simp [findH1Lines, hc]
        have h2 : specH1Text (c :: r) = none := by
          cases r with
          | nil => simp [specH1Text]
          | cons d r' => simp [specH1Text, hc]
        rw [h1, h2]
        exact ihr

/-- C8 — counterexample to the claim as stated.  The content
`"#\nJust text"` has no level-1 heading line (second conjunct: the
spec-side reading of every line is `none`, as the `#` line has no text),
so the claim demands the fallback `"my-docs"` (third conjunct); but the
regex `/^#\s+(.+)$/m` lets `\s+` swallow the newline after the bare `#`,
so `extractTitle` returns `"Just text"` instead. -/
theorem extractTitle_claim_counterexample :
    extractTitle "#\nJust text".data "my-docs.md".data = "Just text".data ∧
    (splitLines "#\nJust text".data).map specH1Text = [none, none] ∧
    stripMdExt "my-docs.md".data = "my-docs".data ∧
    "Just text".data ≠ "my-docs".data :=
  ⟨by decide, by decide, by decide, by decide⟩

/-- C8 as amended: whenever every line that starts with `#` carries
non-blank text after it (so the multiline regex cannot spill past a line
break), `extractTitle` returns exactly what the spec's reading —
the first level-1 heading line's trimmed text, else the filename with
trailing `.md`/`.mdx` removed — prescribes; and the two scenario
evaluations of the claim hold unconditionally. -/
theorem extractTitle_spec_agreement (content fallbackFilename : Str)
    (H : ∀ l ∈ splitLines content, l.head? = some '#' → trim (l.drop 1) ≠ []) :
    extractTitle content fallbackFilename = specExtractTitle content fallbackFilename ∧
    extractTitle "Just text".data "my-docs.md".data = "my-docs".data ∧
    extractTitle "# Title\n...".data "x.mdx".data = "Title".data := by
  refine ⟨?_, by decide, by decide⟩
  unfold extractTitle specExtractTitle
  rw [findH1Lines_eq_spec (splitLines content)
    (fun l hl => not_mem_of_mem_splitOnChar '\n' content l hl) H]

/-- Witness for the amended C8 at a concrete well-formed document. -/
theorem extractTitle_spec_agreement_witness :
    (∀ l ∈ splitLines "# Title\nBody".data, l.head? = some '#' → trim (l.drop 1) ≠ []) ∧
    extractTitle "# Title\nBody".data "f.md".data
      = specExtractTitle "# Title\nBody".data "f.md".data :=
  ⟨by decide, (extractTitle_spec_agreement "# Title\nBody".data "f.md".data (by decide)).1⟩

end AiDocPal
